import Mathlib

/-!
Verification of the notes data store (`store.js`): a localStorage-backed
collection of notes with CRUD operations, search, tags and favorites.

The JavaScript source is embedded shallowly:

* A `Note` record mirrors the normalized note object; timestamps are kept
  as the ISO strings the code stores, and `new Date(d).getTime()` is
  modelled by an arbitrary valuation `tval : String → Int` passed to the
  sorting functions.
* Partial inputs (`Partial<Note>`) are records of `Option` fields;
  JavaScript string falsiness (`x || y` falls through exactly on the empty
  string) is modelled by `jsOr`.  The `tags` input may be absent, present
  but not an array, or an array, so it gets a dedicated three-case type.
* `localStorage` plus `JSON.parse` is modelled for `readStore` by an
  optional raw string and a parse function `String → Option JValue`
  (`none` = `JSON.parse` throws); the store operations themselves work on
  the parsed collection `List Note` and report every `writeStore` call
  they perform in `writes`.
* `String.prototype.localeCompare` is modelled as ordinal comparison of
  the character sequences (`strCmp`), `trim` as stripping whitespace from
  both ends (`jsTrim`), `toLowerCase` as character-wise `Char.toLower`,
  and `Array.prototype.sort` (stable in ECMAScript) as the stable
  insertion sort `stableSort`.
-/

/-- The normalized note record produced by `normalizeNote` and stored in
the collection.  `createdAt`/`updatedAt` are ISO timestamp strings. -/
@[ext]
structure Note where
  id : String
  title : String
  content : String
  tags : List String
  favorite : Bool
  createdAt : String
  updatedAt : String
deriving Repr, DecidableEq

/-- The `tags` field of a partial note input: absent, present but not an
array (``Array.isArray`` fails), or an array of strings. -/
inductive TagsInput where
  | absent
  | notArray
  | arr (l : List String)
deriving Repr, DecidableEq

/-- A partial/untrusted note-like input (`Partial<Note>` in the source):
every field may be missing. -/
structure PartialNote where
  id : Option String := none
  title : Option String := none
  content : Option String := none
  tags : TagsInput := .absent
  favorite : Option Bool := none
  createdAt : Option String := none
  updatedAt : Option String := none
deriving Repr, DecidableEq

/-- JavaScript `x || d` for an optional string `x`: the default is used
when the field is absent or the empty string (the only falsy string). -/
def jsOr (x : Option String) (d : String) : String :=
  match x with
  | none => d
  | some s => if s = "" then d else s

/-- `String.prototype.trim` on the underlying character list: drop
whitespace from the front and from the back. -/
def jsTrimL (l : List Char) : List Char :=
  ((l.dropWhile Char.isWhitespace).reverse.dropWhile Char.isWhitespace).reverse

/-- `String.prototype.trim`. -/
def jsTrim (s : String) : String := ⟨jsTrimL s.data⟩

/-- `String.prototype.toLowerCase`, character-wise. -/
def jsLower (s : String) : String := ⟨s.data.map Char.toLower⟩

/-- `String.prototype.includes`: `needle` occurs as a contiguous
substring of `hay`. -/
def containsSub (hay needle : String) : Bool :=
  (List.range (hay.data.length + 1)).any
    (fun i => needle.data.isPrefixOf (hay.data.drop i))

/-- `[...new Set(l)]`: deduplicate keeping the first occurrence of each
element, carrying the set of elements already seen. -/
def dedupSeen (seen : List String) : List String → List String
  | [] => []
  | t :: ts =>
    if t ∈ seen then dedupSeen seen ts
    else t :: dedupSeen (t :: seen) ts

/-- `[...new Set(l)]` with an empty initial set. -/
def dedupFirst (l : List String) : List String := dedupSeen [] l

/-- `normalizeNote(n)` from the source, with the two non-deterministic
dependencies injected: `uid` is the value `uid()` would return and `now`
is `new Date().toISOString()`. -/
def normalizeNote (uid now : String) (n : PartialNote) : Note :=
  { id := jsOr n.id uid
    title := jsTrim (jsOr n.title "")
    content := jsOr n.content ""
    tags :=
      match n.tags with
      | .arr l => dedupFirst ((l.map jsTrim).filter (fun t => t ≠ ""))
      | _ => []
    favorite := n.favorite.getD false
    createdAt := jsOr n.createdAt now
    updatedAt := jsOr n.updatedAt now }

/-- Ordinal comparison of character lists, modelling `localeCompare` for
the ordinal (code-point) case. -/
def cmpChars : List Char → List Char → Ordering
  | [], [] => .eq
  | [], _ :: _ => .lt
  | _ :: _, [] => .gt
  | a :: as, b :: bs =>
    if a.toNat < b.toNat then .lt
    else if b.toNat < a.toNat then .gt
    else cmpChars as bs

/-- Ordinal string comparison (`localeCompare` model). -/
def strCmp (a b : String) : Ordering := cmpChars a.data b.data

/-- The comparator of `sortNotes`: `updatedAt` (as a time value under
`tval`) descending, then title ascending. -/
def noteCmp (tval : String → Int) (a b : Note) : Ordering :=
  let diff := tval b.updatedAt - tval a.updatedAt
  if diff ≠ 0 then (if diff < 0 then .lt else .gt)
  else strCmp a.title b.title

/-- `comparator(a, b) <= 0`: `a` may stay before `b` in the sorted
output. -/
def noteLe (tval : String → Int) (a b : Note) : Bool :=
  noteCmp tval a b ≠ Ordering.gt

/-- Insert `x` into an already-sorted list, after every element that
compares less-or-equal to it (the position a stable sort gives it). -/
def insertSorted (le : α → α → Bool) (x : α) : List α → List α
  | [] => [x]
  | y :: ys => if le y x then y :: insertSorted le x ys else x :: y :: ys

/-- Stable sort by the boolean relation `le` (`comparator <= 0`),
modelling ECMAScript `Array.prototype.sort`. -/
def stableSort (le : α → α → Bool) (l : List α) : List α :=
  l.foldl (fun acc x => insertSorted le x acc) []

/-- `sortNotes(notes)` from the source. -/
def sortNotes (tval : String → Int) (notes : List Note) : List Note :=
  stableSort (noteLe tval) notes

/-! ## The persistence adapter (`readStore` / `writeStore`)

`readStore` is modelled over JSON values so that every state of the
durable slot — absent blob, unparsable blob, parsed value of the wrong
shape — is representable.  `JSON.parse` is a host primitive and is passed
in as `parse : String → Option JValue`, `none` meaning it throws. -/

/-- A JSON value, as `JSON.parse` can produce it. -/
inductive JValue where
  | null
  | jbool (b : Bool)
  | jnum (n : Int)
  | jstr (s : String)
  | jarr (xs : List JValue)
  | jobj (fields : List (String × JValue))

/-- JavaScript truthiness of a parsed JSON value (`!parsed`). -/
def jTruthy : JValue → Bool
  | .null => false
  | .jbool b => b
  | .jnum n => n ≠ 0
  | .jstr s => s ≠ ""
  | .jarr _ => true
  | .jobj _ => true

/-- Property access `v.notes`-style on a parsed JSON value: only objects
have fields; anything else yields `undefined` (`none`). -/
def jGetField : JValue → String → Option JValue
  | .jobj fields, k => fields.lookup k
  | _, _ => none

/-- `Array.isArray(v)`. -/
def jIsArr : JValue → Bool
  | .jarr _ => true
  | _ => false

/-- The fallback envelope `{ notes: [] }`. -/
def emptyStore : JValue := .jobj [("notes", .jarr [])]

/-- `readStore()` from the source: `slot` is `localStorage.getItem(KEY)`
(`none` = `null`), `parse` models `JSON.parse` (`none` = throws, caught
by the surrounding `try`). -/
def readStore (slot : Option String) (parse : String → Option JValue) : JValue :=
  match slot with
  | none => emptyStore
  | some raw =>
    if raw = "" then emptyStore
    else
      match parse raw with
      | none => emptyStore
      | some parsed =>
        if !jTruthy parsed then emptyStore
        else
          match jGetField parsed "notes" with
          | some v => if jIsArr v then parsed else emptyStore
          | none => emptyStore

/-! ## The store operations

The operations work on the parsed collection (`store.notes : List Note`)
and record, in `writes`, the collection passed to each `writeStore` call
they perform (`writeStore` itself only coerces a non-array `notes` field,
which on a `List Note` is the identity). -/

/-- Result of a store operation: the returned value plus the collections
handed to `writeStore`, in order. -/
structure OpOut (α : Type) where
  ret : α
  writes : List (List Note)
deriving Repr, DecidableEq

/-- `createNote(initial)`: normalize, push, persist, return. -/
def createNote (uid now : String) (initial : PartialNote)
    (notes : List Note) : OpOut Note :=
  let note := normalizeNote uid now initial
  ⟨note, [notes ++ [note]]⟩

/-- `getNote(id)`: first note with the id, or `undefined`. -/
def getNote (notes : List Note) (id : String) : Option Note :=
  notes.find? (fun n => n.id == id)

/-- The merge `{...store.notes[idx], ...fields, id, updatedAt: now}` of
`updateNote`: a field of `fields` overrides the existing value exactly
when it is present, and `id`/`updatedAt` are forced last. -/
def mergeFields (ex : Note) (fields : PartialNote) (id now : String) :
    PartialNote :=
  { id := some id
    title := some (fields.title.getD ex.title)
    content := some (fields.content.getD ex.content)
    tags :=
      match fields.tags with
      | .absent => .arr ex.tags
      | t => t
    favorite := some (fields.favorite.getD ex.favorite)
    createdAt := some (fields.createdAt.getD ex.createdAt)
    updatedAt := some now }

/-- `findIndex` + in-place replacement of `updateNote`, walking to the
first note with the id and substituting the merged note. -/
def updateGo (uid now id : String) (fields : PartialNote) :
    List Note → Option (Note × List Note)
  | [] => none
  | n :: rest =>
    if n.id == id then
      let merged := normalizeNote uid now (mergeFields n fields id now)
      some (merged, merged :: rest)
    else
      match updateGo uid now id fields rest with
      | none => none
      | some (m, rest') => some (m, n :: rest')

/-- `updateNote(id, fields)`: not-found performs no write; otherwise the
merged normalized note replaces the old one and is persisted. -/
def updateNote (uid now id : String) (fields : PartialNote)
    (notes : List Note) : OpOut (Option Note) :=
  match updateGo uid now id fields notes with
  | none => ⟨none, []⟩
  | some (m, newNotes) => ⟨some m, [newNotes]⟩

/-- `deleteNote(id)`: filter out every note with the id, persist
unconditionally, report whether the collection shrank. -/
def deleteNote (id : String) (notes : List Note) : OpOut Bool :=
  let remaining := notes.filter (fun n => !(n.id == id))
  ⟨decide (remaining.length < notes.length), [remaining]⟩

/-- `toggleFavorite(id)`: read the current state, negate via
`updateNote`. -/
def toggleFavorite (uid now id : String) (notes : List Note) :
    OpOut (Option Note) :=
  match getNote notes id with
  | none => ⟨none, []⟩
  | some note => updateNote uid now id { favorite := some (!note.favorite) } notes

/-- The recognized options of `listNotes`. -/
structure ListOptions where
  tag : Option String := none
  favorites : Option Bool := none
  query : Option String := none
deriving Repr, DecidableEq

/-- The `if (favorites) out = out.filter(...)` stage of `listNotes`. -/
def listNotesFav (favorites : Option Bool) (out : List Note) : List Note :=
  if favorites.getD false then out.filter (fun n => n.favorite) else out

/-- The `if (tag) out = out.filter(...)` stage of `listNotes`: the option
tag is trimmed and lowercased, each note tag only lowercased. -/
def listNotesTag (tag : Option String) (out : List Note) : List Note :=
  match tag with
  | some tag =>
    if tag ≠ "" then
      out.filter (fun n => n.tags.any (fun x => jsLower x == jsLower (jsTrim tag)))
    else out
  | none => out

/-- The `if (query && query.trim()) out = out.filter(...)` stage of
`listNotes`: substring search on lowercased title or content. -/
def listNotesQuery (query : Option String) (out : List Note) : List Note :=
  match query with
  | some query =>
    if query ≠ "" ∧ jsTrim query ≠ "" then
      out.filter (fun n =>
        containsSub (jsLower n.title) (jsLower (jsTrim query)) ||
          containsSub (jsLower n.content) (jsLower (jsTrim query)))
    else out
  | none => out

/-- `listNotes(options)`: filter by favorites, tag and query (each only
when truthy), in the source's order, then sort. -/
def listNotes (tval : String → Int) (options : ListOptions)
    (notes : List Note) : List Note :=
  sortNotes tval
    (listNotesQuery options.query
      (listNotesTag options.tag
        (listNotesFav options.favorites notes)))

/-- One `{tag, count}` aggregation entry of `listTags`. -/
structure TagCount where
  tag : String
  count : Nat
deriving Repr, DecidableEq

/-- `map.set(key, (map.get(key) || 0) + 1)` on an insertion-ordered map
represented as an association list. -/
def bump (k : String) : List (String × Nat) → List (String × Nat)
  | [] => [(k, 1)]
  | (k', c) :: rest =>
    if k' = k then (k', c + 1) :: rest else (k', c) :: bump k rest

/-- The aggregation loop of `listTags`: every tag of every note is
trimmed, empties are skipped, the rest bump their counter. -/
def tagMap (notes : List Note) : List (String × Nat) :=
  notes.foldl
    (fun m n =>
      n.tags.foldl
        (fun m t =>
          let key := jsTrim t
          if key = "" then m else bump key m)
        m)
    []

/-- `listTags()`: aggregate, convert entries to `{tag, count}`, sort by
tag (`localeCompare`). -/
def listTags (notes : List Note) : List TagCount :=
  stableSort (fun a b => strCmp a.tag b.tag ≠ Ordering.gt)
    ((tagMap notes).map (fun p => ⟨p.1, p.2⟩))

/-! ## Auxiliary definitions used by the statements -/

/-- The sequence of non-empty trimmed tag keys the `listTags`
aggregation loop visits, in visit order. -/
def tagKeys (notes : List Note) : List String :=
  notes.flatMap (fun n => (n.tags.map jsTrim).filter (fun t => t ≠ ""))

/-- The tag invariant: no duplicate tags and no empty tag. -/
def TagsOk (n : Note) : Prop := n.tags.Nodup ∧ "" ∉ n.tags

/-- The partial input whose every field is the corresponding field of an
existing note (an already-normalized note fed back to the normalizer). -/
def Note.toPartial (n : Note) : PartialNote :=
  { id := some n.id
    title := some n.title
    content := some n.content
    tags := .arr n.tags
    favorite := some n.favorite
    createdAt := some n.createdAt
    updatedAt := some n.updatedAt }

/-- A concrete time valuation for witnesses: the code of the first
character (so "1" < "2" as timestamps). -/
def tvalHead (s : String) : Int := ((s.data.headD '0').toNat : Int)

/-- Following the spec's words: `favorites: true` restricts to notes
with `favorite` true (inactive otherwise). -/
def specPassFavorites (options : ListOptions) (n : Note) : Bool :=
  !(options.favorites.getD false) || n.favorite

/-- Following the spec's words: `tag` restricts to notes containing a
tag equal to the trimmed option tag case-insensitively (inactive when
absent or empty). -/
def specPassTag (options : ListOptions) (n : Note) : Bool :=
  match options.tag with
  | some t =>
    if t = "" then true
    else n.tags.any (fun x => jsLower x == jsLower (jsTrim t))
  | none => true

/-- Following the spec's words: `query` restricts to notes whose title
or content contains the trimmed query as a case-insensitive substring
(inactive when absent or blank). -/
def specPassQuery (options : ListOptions) (n : Note) : Bool :=
  match options.query with
  | some q =>
    if q = "" ∨ jsTrim q = "" then true
    else containsSub (jsLower n.title) (jsLower (jsTrim q)) ||
      containsSub (jsLower n.content) (jsLower (jsTrim q))
  | none => true

/-! ## General-purpose lemmas -/

theorem length_filter_lt_iff (p : α → Bool) (l : List α) :
    (l.filter p).length < l.length ↔ ∃ x ∈ l, ¬ p x := by
  induction l with
  | nil => simp
  | cons a l ih =>
    by_cases h : p a
    · simp [List.filter_cons, h, ih]
    · simp only [List.filter_cons, h, Bool.false_eq_true, if_false, List.length_cons]
      have := List.length_filter_le p l
      constructor
      · intro _
        exact ⟨a, List.mem_cons_self a l, by simp [h]⟩
      · intro _
        omega

/-! ## C1: does `createNote` force a fresh id? -/

/-- C1: the claim states that `createNote(initial)` never returns a note
whose id equals a caller-supplied `initial.id`.  Counterexample: with
`initial.id = "caller-id"` the normalizer keeps the supplied id verbatim
(`id: n.id || uid()`), so the created note's id equals the caller's. -/
theorem C1_counterexample :
    (createNote "fresh-uid" "2024-01-01T00:00:00.000Z"
      { id := some "caller-id" } []).ret.id = "caller-id" := rfl

/-- C1 (amended): `createNote(initial)` keeps a supplied non-empty
`initial.id` verbatim; a fresh identifier is generated only when
`initial.id` is absent or the empty string. -/
theorem C1_amended_holds (uid now : String) (initial : PartialNote)
    (notes : List Note) :
    (∀ s, initial.id = some s → s ≠ "" →
      (createNote uid now initial notes).ret.id = s) ∧
    (initial.id = none ∨ initial.id = some "" →
      (createNote uid now initial notes).ret.id = uid) := by
  constructor
  · intro s hs hne
    simp [createNote, normalizeNote, jsOr, hs, hne]
  · rintro (h | h) <;> simp [createNote, normalizeNote, jsOr, h]

/-- Witness for C1 (amended) at concrete inputs. -/
theorem C1_amended_witness :
    (createNote "U" "N" { id := some "x" } []).ret.id = "x" ∧
    (createNote "U" "N" {} []).ret.id = "U" :=
  ⟨(C1_amended_holds "U" "N" { id := some "x" } []).1 "x" rfl (by decide),
   (C1_amended_holds "U" "N" {} []).2 (Or.inl rfl)⟩

theorem mem_dedupSeen {x : String} :
    ∀ {seen l}, x ∈ dedupSeen seen l → x ∈ l ∧ x ∉ seen := by
  intro seen l
  induction l generalizing seen with
  | nil => simp [dedupSeen]
  | cons t ts ih =>
    intro hx
    simp only [dedupSeen] at hx
    by_cases h : t ∈ seen
    · rw [if_pos h] at hx
      have := ih hx
      exact ⟨List.mem_cons_of_mem _ this.1, this.2⟩
    · rw [if_neg h] at hx
      rcases List.mem_cons.mp hx with rfl | hx'
      · exact ⟨List.mem_cons_self _ _, h⟩
      · have := ih hx'
        refine ⟨List.mem_cons_of_mem _ this.1, fun hs => this.2 ?_⟩
        exact List.mem_cons_of_mem _ hs

theorem dedupSeen_nodup : ∀ (seen l : List String), (dedupSeen seen l).Nodup := by
  intro seen l
  induction l generalizing seen with
  | nil => simp [dedupSeen]
  | cons t ts ih =>
    simp only [dedupSeen]
    by_cases h : t ∈ seen
    · rw [if_pos h]; exact ih seen
    · rw [if_neg h]
      refine List.nodup_cons.mpr ⟨fun hmem => ?_, ih (t :: seen)⟩
      exact (mem_dedupSeen hmem).2 (List.mem_cons_self _ _)

theorem dedupFirst_nodup (l : List String) : (dedupFirst l).Nodup :=
  dedupSeen_nodup [] l

theorem mem_dedupFirst {x : String} {l : List String} (h : x ∈ dedupFirst l) :
    x ∈ l :=
  (mem_dedupSeen h).1

theorem normalizeNote_tags_nodup (uid now : String) (p : PartialNote) :
    (normalizeNote uid now p).tags.Nodup := by
  unfold normalizeNote
  cases p.tags <;> simp [dedupFirst_nodup]

theorem normalizeNote_tags_ne_empty (uid now : String) (p : PartialNote) :
    "" ∉ (normalizeNote uid now p).tags := by
  unfold normalizeNote
  cases htags : p.tags with
  | absent => simp
  | notArray => simp
  | arr l =>
    intro hmem
    simp only at hmem
    have h1 := mem_dedupFirst hmem
    have h2 := (List.mem_filter.mp h1).2
    simp at h2

theorem dropWhile_dropWhile (p : α → Bool) (l : List α) :
    (l.dropWhile p).dropWhile p = l.dropWhile p := by
  cases h : l.dropWhile p with
  | nil => simp
  | cons a t =>
    have hna : ¬ p a := by
      have := List.head_dropWhile_not p l (by simp [h])
      simpa [h] using this
    rw [List.dropWhile_cons_of_neg hna]

theorem dropWhile_eq_self_of_prefix (p : α → Bool) {l r : List α}
    (hl : l.dropWhile p = l) (hpre : r <+: l) : r.dropWhile p = r := by
  cases r with
  | nil => simp
  | cons a t =>
    obtain ⟨s, hs⟩ := hpre
    by_cases hpa : p a
    · exfalso
      have h1 : l.dropWhile p = (t ++ s).dropWhile p := by
        rw [← hs, List.cons_append, List.dropWhile_cons_of_pos hpa]
      have h2 : ((t ++ s).dropWhile p).length ≤ (t ++ s).length :=
        (List.dropWhile_sublist p).length_le
      rw [hl] at h1
      have e1 : l.length = ((t ++ s).dropWhile p).length :=
        congrArg List.length h1
      have e2 : (t ++ s).length = t.length + s.length := List.length_append ..
      have hlen : l.length = t.length + s.length + 1 := by
        rw [← hs]; simp [List.length_append]
      omega
    · rw [List.dropWhile_cons_of_neg hpa]

theorem jsTrimL_idem (l : List Char) : jsTrimL (jsTrimL l) = jsTrimL l := by
  unfold jsTrimL
  set p := Char.isWhitespace
  set m := l.dropWhile p with hm
  set r := (m.reverse.dropWhile p).reverse with hr
  have hmfix : m.dropWhile p = m := dropWhile_dropWhile p l
  have hpre : r <+: m := by
    rw [← List.reverse_reverse m, hr]
    exact List.reverse_prefix.mpr (List.dropWhile_suffix p)
  have hrfix : r.dropWhile p = r := dropWhile_eq_self_of_prefix p hmfix hpre
  rw [hrfix, hr, List.reverse_reverse, dropWhile_dropWhile]

theorem jsTrim_idem (s : String) : jsTrim (jsTrim s) = jsTrim s :=
  congrArg String.mk (jsTrimL_idem s.data)

theorem dedupSeen_eq_self :
    ∀ (seen l : List String), l.Nodup → (∀ x ∈ l, x ∉ seen) →
      dedupSeen seen l = l := by
  intro seen l
  induction l generalizing seen with
  | nil => intro _ _; rfl
  | cons t ts ih =>
    intro hnd hdisj
    have hts : t ∉ seen := hdisj t (List.mem_cons_self _ _)
    rw [dedupSeen, if_neg hts]
    congr 1
    refine ih (t :: seen) (List.nodup_cons.mp hnd).2 ?_
    intro x hx
    intro hmem
    rcases List.mem_cons.mp hmem with rfl | h
    · exact (List.nodup_cons.mp hnd).1 hx
    · exact hdisj x (List.mem_cons_of_mem _ hx) h

theorem dedupFirst_eq_self {l : List String} (h : l.Nodup) :
    dedupFirst l = l :=
  dedupSeen_eq_self [] l h (by simp)

/-- Every tag of a normalized note is trimmed and non-empty. -/
theorem normalizeNote_tags_elem (uid now : String) (p : PartialNote) :
    ∀ t ∈ (normalizeNote uid now p).tags, jsTrim t = t ∧ t ≠ "" := by
  intro t ht
  unfold normalizeNote at ht
  cases htags : p.tags with
  | absent => rw [htags] at ht; simp at ht
  | notArray => rw [htags] at ht; simp at ht
  | arr l =>
    rw [htags] at ht
    simp only at ht
    have h1 := mem_dedupFirst ht
    have h2 := List.mem_filter.mp h1
    obtain ⟨y, _, rfl⟩ := List.mem_map.mp h2.1
    refine ⟨jsTrim_idem y, ?_⟩
    simpa using h2.2

theorem jsOr_ne_empty {x : Option String} {d : String} (hd : d ≠ "") :
    jsOr x d ≠ "" := by
  cases x with
  | none => simpa [jsOr]
  | some s =>
    by_cases hs : s = "" <;> simp [jsOr, hs, hd]

theorem jsOr_some_of_ne {s : String} (h : s ≠ "") (d : String) :
    jsOr (some s) d = s := by
  simp [jsOr, h]

theorem updateGo_shape (uid now id : String) (fields : PartialNote) :
    ∀ notes m l', updateGo uid now id fields notes = some (m, l') →
      (∃ pn, m = normalizeNote uid now pn) ∧ ∀ n ∈ l', n ∈ notes ∨ n = m := by
  intro notes
  induction notes with
  | nil => intro m l' h; exact absurd h (by simp [updateGo])
  | cons x rest ih =>
    intro m l' h
    by_cases hid : (x.id == id) = true
    · simp only [updateGo, if_pos hid] at h
      obtain ⟨rfl, rfl⟩ := Prod.mk.injEq .. ▸ (Option.some.injEq .. ▸ h)
      refine ⟨⟨mergeFields x fields id now, rfl⟩, ?_⟩
      intro n hn
      rcases List.mem_cons.mp hn with rfl | hn'
      · exact Or.inr rfl
      · exact Or.inl (List.mem_cons_of_mem _ hn')
    · simp only [updateGo, if_neg hid] at h
      cases hrec : updateGo uid now id fields rest with
      | none => rw [hrec] at h; exact absurd h (by simp)
      | some p =>
        obtain ⟨m', rest'⟩ := p
        rw [hrec] at h
        obtain ⟨rfl, rfl⟩ := Prod.mk.injEq .. ▸ (Option.some.injEq .. ▸ h)
        obtain ⟨hex, hmem⟩ := ih m' rest' hrec
        refine ⟨hex, ?_⟩
        intro n hn
        rcases List.mem_cons.mp hn with rfl | hn'
        · exact Or.inl (List.mem_cons_self _ _)
        · rcases hmem n hn' with h' | h'
          · exact Or.inl (List.mem_cons_of_mem _ h')
          · exact Or.inr h'

/-! ## C3: `readStore` absorbs every malformed state of the durable slot -/

/-- C3: for every state of the durable slot, `load` (= `readStore`)
returns a value — it never raises, being total by construction, with
`JSON.parse` failure modelled as `parse raw = none` and caught — and the
value is the fallback `{ notes: [] }` when the blob is absent, falsy,
unparsable, not an object, or lacking a sequence `notes` field; when the
blob parses to an object whose `notes` field is a sequence, the parsed
envelope itself is returned. -/
theorem C3_load_safety (slot : Option String) (parse : String → Option JValue) :
    (slot = none → readStore slot parse = emptyStore) ∧
    (∀ raw, slot = some raw → (raw = "" ∨ parse raw = none) →
      readStore slot parse = emptyStore) ∧
    (∀ raw v, slot = some raw → raw ≠ "" → parse raw = some v →
      (¬ ∃ fields l, v = JValue.jobj fields ∧
        fields.lookup "notes" = some (JValue.jarr l)) →
      readStore slot parse = emptyStore) ∧
    (∀ raw fields l, slot = some raw → raw ≠ "" →
      parse raw = some (JValue.jobj fields) →
      fields.lookup "notes" = some (JValue.jarr l) →
      readStore slot parse = JValue.jobj fields) ∧
    emptyStore = JValue.jobj [("notes", JValue.jarr [])] := by
  refine ⟨?_, ?_, ?_, ?_, rfl⟩
  · intro h
    simp [h, readStore]
  · rintro raw rfl (rfl | hp)
    · simp [readStore]
    · simp [readStore, hp]
  · rintro raw v rfl hraw hp hshape
    simp only [readStore, if_neg hraw, hp]
    cases v with
    | null => rfl
    | jbool b => cases b <;> rfl
    | jnum n =>
      by_cases hn : n = 0
      · simp [jTruthy, hn]
      · simp [jTruthy, hn, jGetField]
    | jstr s =>
      by_cases hs : s = ""
      · simp [jTruthy, hs]
      · simp [jTruthy, hs, jGetField]
    | jarr xs => simp [jTruthy, jGetField]
    | jobj fields =>
      simp only [jTruthy, Bool.not_true, Bool.false_eq_true, if_false, jGetField]
      cases hl : fields.lookup "notes" with
      | none => rfl
      | some w =>
        cases w with
        | jarr l => exact absurd ⟨fields, l, rfl, hl⟩ hshape
        | null => rfl
        | jbool b => rfl
        | jnum n => rfl
        | jstr s => rfl
        | jobj f => rfl
  · rintro raw fields l rfl hraw hp hl
    simp only [readStore, if_neg hraw, hp, jTruthy, Bool.not_true,
      Bool.false_eq_true, if_false, jGetField, hl, jIsArr, if_true]

/-- Witness for C3: each hypothesis discharged at a concrete slot state:
absent, unparsable, parsed-to-non-object, and well-formed. -/
theorem C3_witness :
    (readStore none (fun _ => none) = emptyStore) ∧
    (readStore (some "x") (fun _ => none) = emptyStore) ∧
    (readStore (some "x") (fun _ => some (JValue.jstr "y")) = emptyStore) ∧
    (readStore (some "x")
        (fun _ => some (JValue.jobj [("notes", JValue.jarr [])])) =
      JValue.jobj [("notes", JValue.jarr [])]) :=
  ⟨(C3_load_safety none (fun _ => none)).1 rfl,
   (C3_load_safety (some "x") (fun _ => none)).2.1 "x" rfl (Or.inr rfl),
   (C3_load_safety (some "x") (fun _ => some (JValue.jstr "y"))).2.2.1 "x"
     (JValue.jstr "y") rfl (by decide) rfl
     (by rintro ⟨fs, l, h, -⟩; exact JValue.noConfusion h),
   (C3_load_safety (some "x")
       (fun _ => some (JValue.jobj [("notes", JValue.jarr [])]))).2.2.2.1 "x"
     [("notes", JValue.jarr [])] [] rfl (by decide) rfl rfl⟩

/-! ## C9: delete then get -/

/-- C9: after `deleteNote(id)` the persisted collection yields
`getNote(id) = none` (not found), a second `deleteNote(id)` on that
collection returns `false`, and `deleteNote`'s return value is `true`
exactly when a note with the id was present (a removal occurred). -/
theorem C9_delete_then_get (notes : List Note) (id : String) :
    (∀ w ∈ (deleteNote id notes).writes,
      getNote w id = none ∧ (deleteNote id w).ret = false) ∧
    ((deleteNote id notes).ret = true ↔ ∃ n ∈ notes, n.id = id) := by
  constructor
  · intro w hw
    simp only [deleteNote, List.mem_singleton] at hw
    subst hw
    constructor
    · rw [getNote, List.find?_eq_none]
      intro x hx
      have := (List.mem_filter.mp hx).2
      simp at this
      simp [this]
    · simp only [deleteNote, decide_eq_false_iff_not, not_lt]
      have : (notes.filter (fun n => !(n.id == id))).filter
          (fun n => !(n.id == id)) = notes.filter (fun n => !(n.id == id)) := by
        rw [List.filter_eq_self]
        intro a ha
        exact (List.mem_filter.mp ha).2
      rw [this]
  · simp only [deleteNote, decide_eq_true_eq, length_filter_lt_iff]
    constructor
    · rintro ⟨x, hx, hp⟩
      exact ⟨x, hx, by simpa using hp⟩
    · rintro ⟨x, hx, hp⟩
      exact ⟨x, hx, by simp [hp]⟩

/-- Witness for C9 at a concrete collection. -/
theorem C9_witness :
    (getNote ((deleteNote "a" [⟨"a", "t", "c", [], false, "1", "1"⟩]).writes.headI)
        "a" = none ∧
      (deleteNote "a" ((deleteNote "a"
        [⟨"a", "t", "c", [], false, "1", "1"⟩]).writes.headI)).ret = false) ∧
    ((deleteNote "a" [⟨"a", "t", "c", [], false, "1", "1"⟩]).ret = true) :=
  ⟨(C9_delete_then_get [⟨"a", "t", "c", [], false, "1", "1"⟩] "a").1 _
      (by decide),
   (C9_delete_then_get [⟨"a", "t", "c", [], false, "1", "1"⟩] "a").2.mpr
      ⟨⟨"a", "t", "c", [], false, "1", "1"⟩, by decide, rfl⟩⟩

/-! ## C10: the frame effect of `deleteNote` -/

/-- C10: `deleteNote(id)` performs exactly one persistence write — even
when no note matched — and the persisted collection is exactly the notes
whose id differs from the given one, as a sublist of the original
(original relative order, all other notes unchanged), with every note
sharing the id removed. -/
theorem C10_delete_frame (notes : List Note) (id : String) :
    (deleteNote id notes).writes = [notes.filter (fun n => decide (n.id ≠ id))] ∧
    ∀ w ∈ (deleteNote id notes).writes,
      w.Sublist notes ∧ ∀ n ∈ w, n.id ≠ id := by
  refine ⟨?_, ?_⟩
  · simp only [deleteNote, List.cons.injEq, and_true]
    apply List.filter_congr
    intro a _
    rw [Bool.eq_iff_iff]
    simp
  · intro w hw
    simp only [deleteNote, List.mem_singleton] at hw
    subst hw
    refine ⟨List.filter_sublist notes, ?_⟩
    intro n hn
    have := (List.mem_filter.mp hn).2
    simpa using this

/-- Witness for C10 at a concrete collection (with a duplicate id and in
the no-match case via the same theorem's first component). -/
theorem C10_witness :
    (deleteNote "a" [⟨"a", "t", "c", [], false, "1", "1"⟩,
        ⟨"b", "u", "d", [], false, "1", "1"⟩,
        ⟨"a", "v", "e", [], false, "1", "1"⟩]).writes =
      [[⟨"b", "u", "d", [], false, "1", "1"⟩]] ∧
    (∀ n ∈ ([⟨"b", "u", "d", [], false, "1", "1"⟩] : List Note), n.id ≠ "a") := by
  have h := C10_delete_frame
    [⟨"a", "t", "c", [], false, "1", "1"⟩,
     ⟨"b", "u", "d", [], false, "1", "1"⟩,
     ⟨"a", "v", "e", [], false, "1", "1"⟩] "a"
  refine ⟨by rw [h.1]; decide, ?_⟩
  have h2 := (h.2 [⟨"b", "u", "d", [], false, "1", "1"⟩] (by rw [h.1]; decide)).2
  exact h2

/-! ## C6: the tag invariant of normalization -/

/-- C6: every note the Normalizer produces has deduplicated tags with no
empty string — array input is trimmed element-wise, empties dropped and
duplicates removed first-seen (so `["a", " a", "b"]` yields
`["a", "b"]`), non-array input yields `[]` — and since every mutating
operation persists only normalized notes (or notes already in the
collection), the invariant is preserved across `createNote`,
`updateNote` and `deleteNote`. -/
theorem C6_tag_invariant :
    (∀ uid now p, TagsOk (normalizeNote uid now p)) ∧
    (∀ uid now p, p.tags = TagsInput.absent ∨ p.tags = TagsInput.notArray →
      (normalizeNote uid now p).tags = []) ∧
    ((normalizeNote "U" "N" { tags := .arr ["a", " a", "b"] }).tags
      = ["a", "b"]) ∧
    (∀ uid now initial notes, (∀ n ∈ notes, TagsOk n) →
      ∀ w ∈ (createNote uid now initial notes).writes, ∀ n ∈ w, TagsOk n) ∧
    (∀ uid now id fields notes, (∀ n ∈ notes, TagsOk n) →
      ∀ w ∈ (updateNote uid now id fields notes).writes, ∀ n ∈ w, TagsOk n) ∧
    (∀ id notes, (∀ n ∈ notes, TagsOk n) →
      ∀ w ∈ (deleteNote id notes).writes, ∀ n ∈ w, TagsOk n) := by
  have hnorm : ∀ uid now p, TagsOk (normalizeNote uid now p) := fun uid now p =>
    ⟨normalizeNote_tags_nodup uid now p, normalizeNote_tags_ne_empty uid now p⟩
  refine ⟨hnorm, ?_, by decide, ?_, ?_, ?_⟩
  · intro uid now p h
    unfold normalizeNote
    rcases h with h | h <;> rw [h]
  · intro uid now initial notes hinv w hw n hn
    simp only [createNote, List.mem_singleton] at hw
    subst hw
    rcases List.mem_append.mp hn with h | h
    · exact hinv n h
    · rw [List.mem_singleton.mp h]
      exact hnorm uid now initial
  · intro uid now id fields notes hinv w hw n hn
    simp only [updateNote] at hw
    cases hgo : updateGo uid now id fields notes with
    | none => rw [hgo] at hw; simp at hw
    | some p =>
      obtain ⟨m, newNotes⟩ := p
      rw [hgo] at hw
      simp only [List.mem_singleton] at hw
      obtain ⟨⟨pn, hpn⟩, hmem⟩ :=
        updateGo_shape uid now id fields notes m newNotes hgo
      rw [hw] at hn
      rcases hmem n hn with h | h
      · exact hinv n h
      · rw [h, hpn]; exact hnorm uid now pn
  · intro id notes hinv w hw n hn
    simp only [deleteNote, List.mem_singleton] at hw
    subst hw
    exact hinv n (List.mem_filter.mp hn).1

/-- Witness for C6 at concrete inputs, discharging the collection
invariants on small concrete collections. -/
theorem C6_witness :
    TagsOk (normalizeNote "U" "N" {}) ∧
    (normalizeNote "U" "N" { tags := .notArray }).tags = [] ∧
    (∀ w ∈ (createNote "U" "N" { tags := .arr ["a", "a"] }
        [⟨"b", "t", "c", ["x"], false, "1", "1"⟩]).writes, ∀ n ∈ w, TagsOk n) ∧
    (∀ w ∈ (updateNote "U" "N" "b" { title := some "s" }
        [⟨"b", "t", "c", ["x"], false, "1", "1"⟩]).writes, ∀ n ∈ w, TagsOk n) ∧
    (∀ w ∈ (deleteNote "b"
        [⟨"b", "t", "c", ["x"], false, "1", "1"⟩]).writes, ∀ n ∈ w, TagsOk n) := by
  have hbase : ∀ n ∈ ([⟨"b", "t", "c", ["x"], false, "1", "1"⟩] : List Note),
      TagsOk n := by
    intro n hn
    rw [List.mem_singleton.mp hn]
    exact ⟨by decide, by decide⟩
  exact ⟨C6_tag_invariant.1 "U" "N" {},
    C6_tag_invariant.2.1 "U" "N" { tags := .notArray } (Or.inr rfl),
    C6_tag_invariant.2.2.2.1 "U" "N" { tags := .arr ["a", "a"] } _ hbase,
    C6_tag_invariant.2.2.2.2.1 "U" "N" "b" { title := some "s" } _ hbase,
    C6_tag_invariant.2.2.2.2.2 "b" _ hbase⟩

/-! ## C7: idempotence of normalization -/

theorem jsOr_some_empty_default (s : String) : jsOr (some s) "" = s := by
  by_cases h : s = "" <;> simp [jsOr, h]

theorem normalizeNote_toPartial_eq (uid2 now2 : String) (n : Note)
    (hid : n.id ≠ "") (htitle : jsTrim n.title = n.title)
    (hcr : n.createdAt ≠ "") (hup : n.updatedAt ≠ "")
    (htags : ∀ t ∈ n.tags, jsTrim t = t ∧ t ≠ "") (hnd : n.tags.Nodup) :
    normalizeNote uid2 now2 (Note.toPartial n) = n := by
  unfold normalizeNote Note.toPartial
  apply Note.ext
  · exact jsOr_some_of_ne hid uid2
  · rw [jsOr_some_empty_default, htitle]
  · exact jsOr_some_empty_default n.content
  · show dedupFirst ((n.tags.map jsTrim).filter (fun t => decide (t ≠ ""))) = n.tags
    have hmap : n.tags.map jsTrim = n.tags := by
      have h0 : n.tags.map jsTrim = n.tags.map id :=
        List.map_congr_left (fun a ha => (htags a ha).1)
      simpa using h0
    rw [hmap]
    have hfil : n.tags.filter (fun t => decide (t ≠ "")) = n.tags := by
      rw [List.filter_eq_self]
      intro a ha
      simp [(htags a ha).2]
    rw [hfil]
    exact dedupFirst_eq_self hnd
  · rfl
  · exact jsOr_some_of_ne hcr now2
  · exact jsOr_some_of_ne hup now2

/-- C7: normalization is idempotent.  A note that is the output of the
Normalizer (under a non-empty generated id and a non-empty timestamp, as
`uid()` and `toISOString()` always produce) normalizes to itself again,
identically in every field — including `updatedAt`, which
`normalizeNote` itself never forces fresh. -/
theorem C7_normalize_idempotent (uid now uid2 now2 : String) (p : PartialNote)
    (huid : uid ≠ "") (hnow : now ≠ "") :
    normalizeNote uid2 now2 (Note.toPartial (normalizeNote uid now p))
      = normalizeNote uid now p := by
  apply normalizeNote_toPartial_eq
  · exact jsOr_ne_empty huid
  · exact jsTrim_idem (jsOr p.title "")
  · exact jsOr_ne_empty hnow
  · exact jsOr_ne_empty hnow
  · exact normalizeNote_tags_elem uid now p
  · exact normalizeNote_tags_nodup uid now p

/-- Witness for C7 at a concrete input. -/
theorem C7_witness :
    ("U" : String) ≠ "" ∧ ("N" : String) ≠ "" ∧
    normalizeNote "V" "M" (Note.toPartial (normalizeNote "U" "N"
      { title := some " Hi ", tags := .arr ["a", " a", "b"] }))
      = normalizeNote "U" "N" { title := some " Hi ", tags := .arr ["a", " a", "b"] } :=
  ⟨by decide, by decide,
   C7_normalize_idempotent "U" "N" "V" "M"
     { title := some " Hi ", tags := .arr ["a", " a", "b"] }
     (by decide) (by decide)⟩

/-! ## C2: timestamps on update -/

/-- The note `updateNote` returns is the first id-match, merged with the
supplied fields and normalized (`getNote` finds the same first match as
`updateNote`'s `findIndex`). -/
theorem updateNote_ret (uid now id : String) (fields : PartialNote)
    (notes : List Note) :
    (updateNote uid now id fields notes).ret =
      (getNote notes id).map
        (fun ex => normalizeNote uid now (mergeFields ex fields id now)) := by
  induction notes with
  | nil => rfl
  | cons x rest ih =>
    by_cases hid : (x.id == id) = true
    · simp [updateNote, updateGo, hid, getNote, List.find?_cons_of_pos]
    · have hgn : getNote (x :: rest) id = getNote rest id := by
        simp only [getNote]
        rw [List.find?_cons_of_neg _ (by simpa using hid)]
      rw [hgn, ← ih]
      simp only [updateNote, updateGo, if_neg hid]
      cases hrec : updateGo uid now id fields rest with
      | none => simp [hrec]
      | some p => obtain ⟨m, rest'⟩ := p; simp [hrec]

/-- C2: the claim states that on update a caller-supplied
`fields.createdAt` is overridden and the existing `createdAt` always
preserved.  Counterexample: the merge spreads `fields` over the existing
note, so a supplied non-empty `createdAt` (here `"c9"`) replaces the
existing `"c0"` in the returned note. -/
theorem C2_counterexample :
    (updateNote "U" "NOW" "a" { createdAt := some "c9" }
        [⟨"a", "t", "c", [], false, "c0", "u0"⟩]).ret.map Note.createdAt
      = some "c9" := by decide

/-- C2 (amended): `updateNote` always returns a note whose `updatedAt`
is the fresh timestamp (a supplied `fields.updatedAt` is overridden),
but `createdAt` is preserved from the existing record only when
`fields.createdAt` is not supplied (and the existing value is a
non-empty string, as normalized notes always have): a supplied non-empty
`fields.createdAt` replaces it, and a supplied empty one degrades it to
the fresh timestamp. -/
theorem C2_amended_holds (uid now id : String) (fields : PartialNote)
    (notes : List Note) (ex : Note) (hex : getNote notes id = some ex) :
    ∃ m, (updateNote uid now id fields notes).ret = some m ∧
      m.updatedAt = now ∧
      (fields.createdAt = none → ex.createdAt ≠ "" →
        m.createdAt = ex.createdAt) ∧
      (∀ c, fields.createdAt = some c → c ≠ "" → m.createdAt = c) ∧
      (fields.createdAt = some "" → m.createdAt = now) := by
  refine ⟨normalizeNote uid now (mergeFields ex fields id now), ?_, ?_, ?_, ?_, ?_⟩
  · rw [updateNote_ret, hex]
    rfl
  · show jsOr (some now) now = now
    by_cases h : now = "" <;> simp [jsOr, h]
  · intro hnone hne
    show jsOr (some (fields.createdAt.getD ex.createdAt)) now = ex.createdAt
    rw [hnone, Option.getD_none]
    exact jsOr_some_of_ne hne now
  · intro c hc hne
    show jsOr (some (fields.createdAt.getD ex.createdAt)) now = c
    rw [hc, Option.getD_some]
    exact jsOr_some_of_ne hne now
  · intro hc
    show jsOr (some (fields.createdAt.getD ex.createdAt)) now = now
    rw [hc, Option.getD_some]
    simp [jsOr]

/-- Witness for C2 (amended) at a concrete collection: fresh `updatedAt`
despite a supplied one, and preserved `createdAt` when none is
supplied. -/
theorem C2_amended_witness :
    ∃ m, (updateNote "U" "NOW" "a" { title := some "new", updatedAt := some "u9" }
        [⟨"a", "t", "c", [], false, "c0", "u0"⟩]).ret = some m ∧
      m.updatedAt = "NOW" ∧ m.createdAt = "c0" := by
  obtain ⟨m, hret, hup, hcr, -, -⟩ :=
    C2_amended_holds "U" "NOW" "a" { title := some "new", updatedAt := some "u9" }
      [⟨"a", "t", "c", [], false, "c0", "u0"⟩]
      ⟨"a", "t", "c", [], false, "c0", "u0"⟩ (by decide)
  exact ⟨m, hret, hup, hcr rfl (by decide)⟩

/-! ## Lemmas about the stable sort -/

theorem insertSorted_eq (le : α → α → Bool) (x : α) (l : List α) :
    insertSorted le x l =
      l.takeWhile (fun y => le y x) ++ x :: l.dropWhile (fun y => le y x) := by
  induction l with
  | nil => rfl
  | cons y ys ih =>
    by_cases h : le y x
    · simp [insertSorted, h, List.takeWhile_cons, List.dropWhile_cons, ih]
    · simp [insertSorted, h, List.takeWhile_cons, List.dropWhile_cons]

theorem insertSorted_perm (le : α → α → Bool) (x : α) (l : List α) :
    (insertSorted le x l).Perm (x :: l) := by
  rw [insertSorted_eq]
  have h1 : (l.takeWhile (fun y => le y x) ++ x :: l.dropWhile (fun y => le y x)).Perm
      (x :: (l.takeWhile (fun y => le y x) ++ l.dropWhile (fun y => le y x))) :=
    List.perm_middle
  rwa [List.takeWhile_append_dropWhile] at h1

theorem stableSort_perm_aux (le : α → α → Bool) :
    ∀ (l acc : List α),
      (l.foldl (fun acc x => insertSorted le x acc) acc).Perm (acc ++ l) := by
  intro l
  induction l with
  | nil => intro acc; simp
  | cons x xs ih =>
    intro acc
    have h1 := ih (insertSorted le x acc)
    have h2 : (insertSorted le x acc ++ xs).Perm ((x :: acc) ++ xs) :=
      List.Perm.append_right xs (insertSorted_perm le x acc)
    have h3 : ((x :: acc) ++ xs).Perm (acc ++ x :: xs) := by
      have hmid : (acc ++ x :: xs).Perm (x :: (acc ++ xs)) := List.perm_middle
      simpa using hmid.symm
    exact (h1.trans h2).trans h3

theorem stableSort_perm (le : α → α → Bool) (l : List α) :
    (stableSort le l).Perm l := by
  simpa using stableSort_perm_aux le l []

theorem mem_insertSorted {le : α → α → Bool} {x z : α} {l : List α} :
    z ∈ insertSorted le x l ↔ z = x ∨ z ∈ l := by
  rw [(insertSorted_perm le x l).mem_iff, List.mem_cons]

theorem insertSorted_pairwise {le : α → α → Bool}
    (htot : ∀ a b, le a b = true ∨ le b a = true)
    (htrans : ∀ a b c, le a b = true → le b c = true → le a c = true)
    {x : α} {l : List α} (hl : l.Pairwise (fun a b => le a b = true)) :
    (insertSorted le x l).Pairwise (fun a b => le a b = true) := by
  induction l with
  | nil => simp [insertSorted]
  | cons y ys ih =>
    obtain ⟨hy, hys⟩ := List.pairwise_cons.mp hl
    by_cases h : le y x
    · rw [insertSorted, if_pos h]
      refine List.pairwise_cons.mpr ⟨?_, ih hys⟩
      intro z hz
      rcases mem_insertSorted.mp hz with rfl | hz'
      · exact h
      · exact hy z hz'
    · rw [insertSorted, if_neg h]
      have hxy : le x y = true := by
        rcases htot x y with h' | h'
        · exact h'
        · exact absurd h' h
      refine List.pairwise_cons.mpr ⟨?_, hl⟩
      intro z hz
      rcases List.mem_cons.mp hz with rfl | hz'
      · exact hxy
      · exact htrans x y z hxy (hy z hz')

theorem stableSort_pairwise {le : α → α → Bool}
    (htot : ∀ a b, le a b = true ∨ le b a = true)
    (htrans : ∀ a b c, le a b = true → le b c = true → le a c = true)
    (l : List α) :
    (stableSort le l).Pairwise (fun a b => le a b = true) := by
  suffices h : ∀ (l acc : List α), acc.Pairwise (fun a b => le a b = true) →
      (l.foldl (fun acc x => insertSorted le x acc) acc).Pairwise
        (fun a b => le a b = true) by
    exact h l [] (by simp)
  intro l
  induction l with
  | nil => intro acc hacc; exact hacc
  | cons x xs ih =>
    intro acc hacc
    exact ih (insertSorted le x acc) (insertSorted_pairwise htot htrans hacc)

theorem filter_insertSorted_pos {le : α → α → Bool} {p : α → Bool}
    (htrans : ∀ a b c, le a b = true → le b c = true → le a c = true)
    {x : α} {l : List α} (hl : l.Pairwise (fun a b => le a b = true))
    (hpx : p x = true)
    (hequiv : ∀ y ∈ l, p y = true → le y x = true) :
    (insertSorted le x l).filter p = l.filter p ++ [x] := by
  have hdrop : (l.dropWhile (fun y => le y x)).filter p = [] := by
    rw [List.filter_eq_nil_iff]
    intro z hz
    by_contra hpz'
    have hpz : p z = true := by simpa using hpz'
    cases hd : l.dropWhile (fun y => le y x) with
    | nil => rw [hd] at hz; simp at hz
    | cons z₀ zs =>
      have hz₀ : ¬ le z₀ x := by
        have := List.head_dropWhile_not (fun y => le y x) l (by simp [hd])
        simpa [hd] using this
      have hsub : (l.dropWhile (fun y => le y x)).Sublist l :=
        List.dropWhile_sublist _
      have hz₀mem : z₀ ∈ l :=
        hsub.mem (by rw [hd]; exact List.mem_cons_self _ _)
      have hsorted : (l.dropWhile (fun y => le y x)).Pairwise
          (fun a b => le a b = true) := hl.sublist (List.dropWhile_sublist _)
      rw [hd] at hz hsorted
      rcases List.mem_cons.mp hz with rfl | hz'
      · exact hz₀ (hequiv z hz₀mem hpz)
      · have hle : le z₀ z = true :=
          (List.pairwise_cons.mp hsorted).1 z hz'
        have hzmem : z ∈ l :=
          hsub.mem (by rw [hd]; exact List.mem_cons_of_mem _ hz')
        exact hz₀ (htrans z₀ z x hle (hequiv z hzmem hpz))
  have hsplit : l.filter p = (l.takeWhile (fun y => le y x)).filter p ++
      (l.dropWhile (fun y => le y x)).filter p := by
    rw [← List.filter_append, List.takeWhile_append_dropWhile]
  rw [insertSorted_eq, List.filter_append, List.filter_cons, hpx, hsplit, hdrop]
  simp

theorem filter_insertSorted_neg {le : α → α → Bool} {p : α → Bool}
    {x : α} {l : List α} (hpx : p x = false) :
    (insertSorted le x l).filter p = l.filter p := by
  rw [insertSorted_eq, List.filter_append, List.filter_cons, hpx]
  simp only [Bool.false_eq_true, if_false]
  rw [← List.filter_append, List.takeWhile_append_dropWhile]

/-- Stability of `stableSort`: if every pair of elements selected by `p`
is tied under `le` (each weakly precedes the other), the sorted output
lists the `p`-elements in their original relative order. -/
theorem stableSort_filter {le : α → α → Bool} {p : α → Bool}
    (htot : ∀ a b, le a b = true ∨ le b a = true)
    (htrans : ∀ a b c, le a b = true → le b c = true → le a c = true)
    (hequiv : ∀ x y, p x = true → p y = true → le x y = true)
    (l : List α) : (stableSort le l).filter p = l.filter p := by
  suffices h : ∀ (l acc : List α), acc.Pairwise (fun a b => le a b = true) →
      (l.foldl (fun acc x => insertSorted le x acc) acc).filter p =
        acc.filter p ++ l.filter p by
    simpa using h l [] (by simp)
  intro l
  induction l with
  | nil => intro acc hacc; simp
  | cons x xs ih =>
    intro acc hacc
    have step : (x :: xs).foldl (fun acc x => insertSorted le x acc) acc =
        xs.foldl (fun acc x => insertSorted le x acc) (insertSorted le x acc) :=
      rfl
    rw [step, ih (insertSorted le x acc) (insertSorted_pairwise htot htrans hacc)]
    by_cases hpx : p x = true
    · have hxins : (insertSorted le x acc).filter p = acc.filter p ++ [x] := by
        refine filter_insertSorted_pos htrans hacc hpx ?_
        intro y _ hpy
        exact hequiv y x hpy hpx
      rw [hxins, List.filter_cons, hpx]
      simp
    · have hpx' : p x = false := by simpa using hpx
      rw [filter_insertSorted_neg hpx', List.filter_cons, hpx']
      simp

/-! ## Order facts about the comparators -/

theorem cmpChars_self : ∀ l : List Char, cmpChars l l = .eq := by
  intro l
  induction l with
  | nil => rfl
  | cons a as ih => simp [cmpChars, ih]

theorem cmpChars_swap : ∀ (a b : List Char), cmpChars b a = (cmpChars a b).swap := by
  intro a
  induction a with
  | nil => intro b; cases b <;> simp [cmpChars, Ordering.swap]
  | cons a1 as ih =>
    intro b
    cases b with
    | nil => simp [cmpChars, Ordering.swap]
    | cons b1 bs =>
      simp only [cmpChars]
      by_cases h1 : a1.toNat < b1.toNat
      · have h2 : ¬ b1.toNat < a1.toNat := by omega
        simp [h1, h2, Ordering.swap]
      · by_cases h2 : b1.toNat < a1.toNat
        · simp [h1, h2, Ordering.swap]
        · simp [h1, h2, ih bs]

theorem cmpChars_total (a b : List Char) :
    cmpChars a b ≠ .gt ∨ cmpChars b a ≠ .gt := by
  by_cases h : cmpChars a b = .gt
  · right
    rw [cmpChars_swap a b, h]
    simp [Ordering.swap]
  · left; exact h

theorem cmpChars_le_trans :
    ∀ (a b c : List Char), cmpChars a b ≠ .gt → cmpChars b c ≠ .gt →
      cmpChars a c ≠ .gt := by
  intro a
  induction a with
  | nil =>
    intro b c _ _
    cases c <;> simp [cmpChars]
  | cons a1 as ih =>
    intro b c h1 h2
    cases b with
    | nil => exact absurd rfl h1
    | cons b1 bs =>
      cases c with
      | nil => exact absurd rfl h2
      | cons c1 cs =>
        simp only [cmpChars] at h1 h2 ⊢
        by_cases hab : a1.toNat < b1.toNat
        · by_cases hbc : b1.toNat < c1.toNat
          · have hac : a1.toNat < c1.toNat := by omega
            simp [hac]
          · by_cases hcb : c1.toNat < b1.toNat
            · rw [if_neg hbc, if_pos hcb] at h2; exact absurd rfl h2
            · have hac : a1.toNat < c1.toNat := by omega
              simp [hac]
        · by_cases hba : b1.toNat < a1.toNat
          · rw [if_neg hab, if_pos hba] at h1; exact absurd rfl h1
          · rw [if_neg hab, if_neg hba] at h1
            by_cases hbc : b1.toNat < c1.toNat
            · have hac : a1.toNat < c1.toNat := by omega
              simp [hac]
            · by_cases hcb : c1.toNat < b1.toNat
              · rw [if_neg hbc, if_pos hcb] at h2; exact absurd rfl h2
              · rw [if_neg hbc, if_neg hcb] at h2
                have hac1 : ¬ a1.toNat < c1.toNat := by omega
                have hca1 : ¬ c1.toNat < a1.toNat := by omega
                rw [if_neg hac1, if_neg hca1]
                exact ih bs cs h1 h2

theorem noteLe_iff (tval : String → Int) (a b : Note) :
    noteLe tval a b = true ↔
      (tval b.updatedAt < tval a.updatedAt ∨
        (tval a.updatedAt = tval b.updatedAt ∧ strCmp a.title b.title ≠ .gt)) := by
  unfold noteLe noteCmp
  rw [decide_eq_true_eq]
  simp only []
  split_ifs with h1 h2
  · have hlt : tval b.updatedAt < tval a.updatedAt := by omega
    simp [hlt]
  · have hgt : tval a.updatedAt < tval b.updatedAt := by omega
    constructor
    · intro h; exact absurd rfl h
    · rintro (h | ⟨h, -⟩) <;> omega
  · have heq : tval a.updatedAt = tval b.updatedAt := by omega
    constructor
    · intro h
      exact Or.inr ⟨heq, h⟩
    · rintro (h | ⟨-, h⟩)
      · omega
      · exact h

theorem noteLe_total (tval : String → Int) (a b : Note) :
    noteLe tval a b = true ∨ noteLe tval b a = true := by
  rw [noteLe_iff, noteLe_iff]
  rcases lt_trichotomy (tval a.updatedAt) (tval b.updatedAt) with h | h | h
  · right; left; exact h
  · rcases cmpChars_total a.title.data b.title.data with hc | hc
    · left; right; exact ⟨h, hc⟩
    · right; right; exact ⟨h.symm, hc⟩
  · left; left; exact h

theorem noteLe_trans (tval : String → Int) (a b c : Note) :
    noteLe tval a b = true → noteLe tval b c = true →
      noteLe tval a c = true := by
  rw [noteLe_iff, noteLe_iff, noteLe_iff]
  rintro (hab | ⟨hab, sab⟩) (hbc | ⟨hbc, sbc⟩)
  · left; omega
  · left; omega
  · left; omega
  · right
    exact ⟨by omega, cmpChars_le_trans _ _ _ sab sbc⟩

/-! ## `sortNotes` and `listNotes` -/

theorem sortNotes_perm (tval : String → Int) (l : List Note) :
    (sortNotes tval l).Perm l :=
  stableSort_perm (noteLe tval) l

theorem sortNotes_pairwise (tval : String → Int) (l : List Note) :
    (sortNotes tval l).Pairwise (fun a b =>
      tval b.updatedAt < tval a.updatedAt ∨
      (tval a.updatedAt = tval b.updatedAt ∧ strCmp a.title b.title ≠ .gt)) := by
  have h := stableSort_pairwise (noteLe_total tval)
    (fun a b c => noteLe_trans tval a b c) l
  exact h.imp (fun hab => (noteLe_iff tval _ _).mp hab)

theorem sortNotes_stable (tval : String → Int) (l : List Note) (u ttl : String) :
    (sortNotes tval l).filter (fun n => n.updatedAt == u && n.title == ttl) =
      l.filter (fun n => n.updatedAt == u && n.title == ttl) := by
  apply stableSort_filter (noteLe_total tval)
    (fun a b c => noteLe_trans tval a b c)
  intro x y hx hy
  simp only [Bool.and_eq_true, beq_iff_eq] at hx hy
  rw [noteLe_iff]
  right
  refine ⟨by rw [hx.1, hy.1], ?_⟩
  rw [show x.title = y.title from hx.2.trans hy.2.symm]
  show cmpChars y.title.data y.title.data ≠ .gt
  rw [cmpChars_self]
  simp

/-! ## C5: the sort contract -/

/-- C5: every `listNotes` output is sorted by `updatedAt` (time value)
descending with ties broken by title ascending under the
`localeCompare` model; the sort is stable — notes with fully equal
`updatedAt` and `title` keep the collection's relative order (their
filtered subsequence is unchanged) — and on the spec's example with
`updatedAt` = [T1, T1, T2], titles ["b", "a", "z"], T2 > T1, the output
order is [z, a, b]. -/
theorem C5_sort_contract :
    (∀ (tval : String → Int) (options : ListOptions) (notes : List Note),
      (listNotes tval options notes).Pairwise (fun a b =>
        tval b.updatedAt < tval a.updatedAt ∨
        (tval a.updatedAt = tval b.updatedAt ∧ strCmp a.title b.title ≠ .gt))) ∧
    (∀ (tval : String → Int) (notes : List Note) (u ttl : String),
      (listNotes tval {} notes).filter
          (fun n => n.updatedAt == u && n.title == ttl) =
        notes.filter (fun n => n.updatedAt == u && n.title == ttl)) ∧
    ((listNotes tvalHead {}
        [⟨"1", "b", "", [], false, "1", "1"⟩,
         ⟨"2", "a", "", [], false, "1", "1"⟩,
         ⟨"3", "z", "", [], false, "2", "2"⟩]).map Note.title
      = ["z", "a", "b"]) := by
  refine ⟨?_, ?_, by decide⟩
  · intro tval options notes
    exact sortNotes_pairwise tval _
  · intro tval notes u ttl
    exact sortNotes_stable tval notes u ttl

/-! ## C4: filter composition -/

theorem listNotesFav_eq (o : ListOptions) (l : List Note) :
    listNotesFav o.favorites l = l.filter (fun n => specPassFavorites o n) := by
  unfold listNotesFav specPassFavorites
  cases hb : o.favorites.getD false
  · simp [List.filter_true]
  · simp only [if_true, Bool.not_true, Bool.false_or]

theorem listNotesTag_eq (o : ListOptions) (l : List Note) :
    listNotesTag o.tag l = l.filter (fun n => specPassTag o n) := by
  unfold listNotesTag specPassTag
  cases htag : o.tag with
  | none => simp [List.filter_true]
  | some t =>
    by_cases ht : t = ""
    · simp [ht, List.filter_true]
    · simp [ht]

theorem listNotesQuery_eq (o : ListOptions) (l : List Note) :
    listNotesQuery o.query l = l.filter (fun n => specPassQuery o n) := by
  unfold listNotesQuery specPassQuery
  cases hq : o.query with
  | none => simp [List.filter_true]
  | some q =>
    simp only []
    by_cases hblank : q = "" ∨ jsTrim q = ""
    · rw [if_neg (show ¬(q ≠ "" ∧ jsTrim q ≠ "") by tauto)]
      simp only [if_pos hblank]
      simp [List.filter_true]
    · rw [if_pos (show q ≠ "" ∧ jsTrim q ≠ "" by tauto)]
      simp only [if_neg hblank]

/-- C4: `listNotes` composes its three filters with logical AND — the
output is a permutation (reordered only by the sort) of the notes that
pass the favorites restriction, the case-insensitive trimmed-tag
restriction and the case-insensitive trimmed-query substring restriction
simultaneously — and on the spec's example with A(tag "x", favorite),
B(tag "x", not favorite), C(tag "y", favorite),
`listNotes {tag: "x", favorites: true}` returns exactly [A]. -/
theorem C4_filter_composition :
    (∀ (tval : String → Int) (options : ListOptions) (notes : List Note),
      (listNotes tval options notes).Perm (notes.filter (fun n =>
        specPassFavorites options n && specPassTag options n &&
          specPassQuery options n))) ∧
    (listNotes tvalHead { tag := some "x", favorites := some true }
        [⟨"A", "a", "", ["x"], true, "1", "1"⟩,
         ⟨"B", "b", "", ["x"], false, "1", "1"⟩,
         ⟨"C", "c", "", ["y"], true, "1", "1"⟩]
      = [⟨"A", "a", "", ["x"], true, "1", "1"⟩]) := by
  refine ⟨?_, by decide⟩
  intro tval options notes
  rw [listNotes, listNotesFav_eq, listNotesTag_eq, listNotesQuery_eq]
  refine (sortNotes_perm tval _).trans ?_
  rw [List.filter_filter, List.filter_filter]
  refine List.Perm.of_eq (List.filter_congr ?_)
  intro n _
  cases h1 : specPassFavorites options n <;>
    cases h2 : specPassTag options n <;>
    cases h3 : specPassQuery options n <;> simp [h1, h2, h3]

/-! ## C8: the `listTags` aggregation -/

theorem bump_keys (k : String) : ∀ m : List (String × Nat),
    (bump k m).map Prod.fst =
      if k ∈ m.map Prod.fst then m.map Prod.fst else m.map Prod.fst ++ [k] := by
  intro m
  induction m with
  | nil => simp [bump]
  | cons q rest ih =>
    obtain ⟨k', c⟩ := q
    by_cases hk : k' = k
    · simp [bump, hk]
    · have hne : k ∉ ([k'] : List String) := by simp [Ne.symm hk]
      simp only [bump, if_neg hk, List.map_cons, List.mem_cons, ih]
      by_cases hmem : k ∈ rest.map Prod.fst
      · simp [hmem, Ne.symm hk]
      · simp [hmem, Ne.symm hk]

theorem bump_keys_nodup {k : String} {m : List (String × Nat)}
    (h : (m.map Prod.fst).Nodup) : ((bump k m).map Prod.fst).Nodup := by
  rw [bump_keys]
  by_cases hk : k ∈ m.map Prod.fst
  · simpa [hk] using h
  · simp [hk, List.nodup_append, h]

theorem bump_lookup (k0 k : String) : ∀ m : List (String × Nat),
    (bump k0 m).lookup k =
      if k = k0 then
        match m.lookup k with
        | some c => some (c + 1)
        | none => some 1
      else m.lookup k := by
  intro m
  induction m with
  | nil =>
    by_cases hk : k = k0
    · simp [bump, List.lookup, hk]
    · have hbeq : (k == k0) = false := by simp [hk]
      simp [bump, List.lookup, hk, hbeq]
  | cons q rest ih =>
    obtain ⟨k', c⟩ := q
    by_cases hk' : k' = k0
    · simp only [bump, if_pos hk']
      by_cases hk : k = k'
      · have hbeq : (k == k') = true := by simp [hk]
        have hkk0 : k = k0 := hk.trans hk'
        have hbeq' : (k0 == k') = true := by simp [hk']
        simp [List.lookup, hbeq, hkk0, hbeq']
      · have hbeq : (k == k') = false := by simp [hk]
        have hkk0 : k ≠ k0 := by rw [← hk']; exact hk
        simp only [List.lookup, hbeq, if_neg hkk0]
    · simp only [bump, if_neg hk']
      by_cases hk : k = k'
      · have hbeq : (k == k') = true := by simp [hk]
        have hkk0 : k ≠ k0 := by rw [hk]; exact hk'
        simp only [List.lookup, hbeq, if_neg hkk0]
      · have hbeq : (k == k') = false := by simp [hk]
        simp only [List.lookup, hbeq]
        exact ih

theorem foldl_bump_spec (ks : List String) :
    ∀ m : List (String × Nat), (m.map Prod.fst).Nodup →
      (((ks.foldl (fun m k => bump k m) m).map Prod.fst).Nodup ∧
       ∀ k, (ks.foldl (fun m k => bump k m) m).lookup k =
         match m.lookup k with
         | some c0 => some (c0 + ks.count k)
         | none => if ks.count k = 0 then none else some (ks.count k)) := by
  induction ks with
  | nil =>
    intro m hm
    refine ⟨hm, ?_⟩
    intro k
    cases h : m.lookup k <;> simp [h]
  | cons k0 ks ih =>
    intro m hm
    obtain ⟨hnd, hlk⟩ := ih (bump k0 m) (bump_keys_nodup hm)
    refine ⟨hnd, ?_⟩
    intro k
    have hcount : (k0 :: ks).count k = ks.count k + if k0 == k then 1 else 0 :=
      List.count_cons k k0 ks
    rw [List.foldl_cons, hlk k, bump_lookup]
    by_cases hk : k = k0
    · have hbeq : (k0 == k) = true := by simp [hk]
      rw [if_pos hk]
      cases h : m.lookup k with
      | some c =>
        simp only [hcount, hbeq, if_true]
        congr 1
        omega
      | none =>
        have : ks.count k + 1 ≠ 0 := by omega
        simp only [hcount, hbeq, if_true]
        rw [if_neg this]
        congr 1
        omega
    · have hbeq : (k0 == k) = false := by simp [Ne.symm hk]
      rw [if_neg hk]
      simp only [hcount, hbeq, Bool.false_eq_true, if_false, Nat.add_zero]

theorem lookup_eq_some_of_mem : ∀ {m : List (String × Nat)},
    (m.map Prod.fst).Nodup → ∀ {p : String × Nat}, p ∈ m →
      m.lookup p.1 = some p.2 := by
  intro m
  induction m with
  | nil => intro _ p hp; simp at hp
  | cons q rest ih =>
    intro hnd p hp
    have hnd' : q.1 ∉ rest.map Prod.fst ∧ (rest.map Prod.fst).Nodup := by
      rw [List.map_cons, List.nodup_cons] at hnd
      exact hnd
    obtain ⟨hq, hrest⟩ := hnd'
    rcases List.mem_cons.mp hp with rfl | hp'
    · simp [List.lookup]
    · have hne : p.1 ≠ q.1 := by
        intro h
        apply hq
        rw [← h]
        exact List.mem_map_of_mem Prod.fst hp'
      have hbeq : (p.1 == q.1) = false := by simp [hne]
      obtain ⟨k', c⟩ := q
      simp only [List.lookup, hbeq]
      exact ih hrest hp'

theorem mem_of_lookup_eq_some : ∀ {m : List (String × Nat)} {k : String} {c : Nat},
    m.lookup k = some c → (k, c) ∈ m := by
  intro m
  induction m with
  | nil => intro k c h; simp [List.lookup] at h
  | cons q rest ih =>
    intro k c h
    obtain ⟨k', c'⟩ := q
    by_cases hk : k = k'
    · subst hk
      simp [List.lookup] at h
      simp [h]
    · have hbeq : (k == k') = false := by simp [hk]
      simp only [List.lookup, hbeq] at h
      exact List.mem_cons_of_mem _ (ih h)

theorem tags_foldl_eq (tags : List String) :
    ∀ m : List (String × Nat),
      tags.foldl (fun m t => if jsTrim t = "" then m else bump (jsTrim t) m) m
        = ((tags.map jsTrim).filter (fun t => t ≠ "")).foldl
            (fun m k => bump k m) m := by
  induction tags with
  | nil => intro m; rfl
  | cons t ts ih =>
    intro m
    by_cases ht : jsTrim t = ""
    · simp [ht, ih]
    · simp [ht, ih]

theorem tagMap_eq (notes : List Note) :
    tagMap notes = (tagKeys notes).foldl (fun m k => bump k m) [] := by
  suffices h : ∀ (notes : List Note) (m : List (String × Nat)),
      notes.foldl
          (fun m n => n.tags.foldl
            (fun m t => if jsTrim t = "" then m else bump (jsTrim t) m) m) m
        = (tagKeys notes).foldl (fun m k => bump k m) m by
    exact h notes []
  intro notes
  induction notes with
  | nil => intro m; rfl
  | cons n rest ih =>
    intro m
    simp only [List.foldl_cons, tagKeys, List.flatMap_cons, List.foldl_append]
    rw [tags_foldl_eq]
    exact ih _

theorem tagKeys_eq_flatMap : ∀ (notes : List Note),
    (∀ n ∈ notes, ∀ t ∈ n.tags, jsTrim t = t ∧ t ≠ "") →
      tagKeys notes = notes.flatMap (fun n => n.tags) := by
  intro notes
  induction notes with
  | nil => intro _; rfl
  | cons n rest ih =>
    intro hinv
    simp only [tagKeys, List.flatMap_cons] at ih ⊢
    rw [ih (fun m hm => hinv m (List.mem_cons_of_mem _ hm))]
    congr 1
    have hmap : n.tags.map jsTrim = n.tags := by
      have h0 : n.tags.map jsTrim = n.tags.map id :=
        List.map_congr_left (fun a ha => (hinv n (List.mem_cons_self _ _) a ha).1)
      simpa using h0
    rw [hmap, List.filter_eq_self]
    intro a ha
    simp [(hinv n (List.mem_cons_self _ _) a ha).2]

theorem count_flatMap_tags : ∀ (notes : List Note) (t : String),
    (∀ n ∈ notes, n.tags.Nodup) →
      (notes.flatMap (fun n => n.tags)).count t =
        (notes.filter (fun n => decide (t ∈ n.tags))).length := by
  intro notes t
  induction notes with
  | nil => intro _; rfl
  | cons n rest ih =>
    intro hinv
    simp only [List.flatMap_cons, List.count_append, List.filter_cons]
    rw [ih (fun m hm => hinv m (List.mem_cons_of_mem _ hm))]
    by_cases hmem : t ∈ n.tags
    · have hc : n.tags.count t = 1 :=
        List.count_eq_one_of_mem (hinv n (List.mem_cons_self _ _)) hmem
      simp [hc, hmem, Nat.add_comm]
    · have hc : n.tags.count t = 0 := List.count_eq_zero.mpr hmem
      simp [hc, hmem]

theorem cmpChars_eq_iff : ∀ (a b : List Char), cmpChars a b = .eq ↔ a = b := by
  intro a
  induction a with
  | nil => intro b; cases b <;> simp [cmpChars]
  | cons a1 as ih =>
    intro b
    cases b with
    | nil => simp [cmpChars]
    | cons b1 bs =>
      simp only [cmpChars]
      by_cases h1 : a1.toNat < b1.toNat
      · have hne : a1 ≠ b1 := by
          intro h
          rw [h] at h1
          omega
        simp [h1, hne]
      · by_cases h2 : b1.toNat < a1.toNat
        · have hne : a1 ≠ b1 := by
            intro h
            rw [h] at h2
            omega
          simp [h1, h2, hne]
        · have heq : a1 = b1 := by
            have hn : a1.toNat = b1.toNat := by omega
            have e1 := Char.ofNat_toNat a1
            have e2 := Char.ofNat_toNat b1
            rw [← e1, ← e2, hn]
          simp [h1, h2, heq, ih]

/-- C8: on a collection of normalized notes (each note's tags
deduplicated, trimmed, non-empty — the documented Note invariant),
`listTags()` returns entries strictly sorted by tag (hence one entry per
distinct tag value), each entry's count is the number of notes
containing that tag, every tag present in some note gets an entry, and
on the spec's scenario — `createNote({title: " Hi ", tags: ["a", "a", " b"]})`
on an empty collection — the created note has title "Hi" and tags
["a", "b"], and `listTags` on the persisted collection returns
[{tag: "a", count: 1}, {tag: "b", count: 1}]. -/
theorem C8_listTags_aggregation (notes : List Note)
    (hinv : ∀ n ∈ notes, n.tags.Nodup ∧ ∀ t ∈ n.tags, jsTrim t = t ∧ t ≠ "") :
    (listTags notes).Pairwise (fun a b => strCmp a.tag b.tag = .lt) ∧
    (∀ e ∈ listTags notes, (∃ n ∈ notes, e.tag ∈ n.tags) ∧
      e.count = (notes.filter (fun n => decide (e.tag ∈ n.tags))).length) ∧
    (∀ t : String, (∃ n ∈ notes, t ∈ n.tags) →
      ∃ e ∈ listTags notes, e.tag = t) ∧
    ((createNote "U" "N"
        { title := some " Hi ", tags := .arr ["a", "a", " b"] } []).ret.title
        = "Hi" ∧
      (createNote "U" "N"
        { title := some " Hi ", tags := .arr ["a", "a", " b"] } []).ret.tags
        = ["a", "b"] ∧
      ∀ w ∈ (createNote "U" "N"
          { title := some " Hi ", tags := .arr ["a", "a", " b"] } []).writes,
        listTags w = [⟨"a", 1⟩, ⟨"b", 1⟩]) := by
  have hspec := foldl_bump_spec (tagKeys notes) [] (by simp)
  rw [← tagMap_eq] at hspec
  obtain ⟨hkeysnd, hlook⟩ := hspec
  have hlook' : ∀ k, (tagMap notes).lookup k =
      if (tagKeys notes).count k = 0 then none
      else some ((tagKeys notes).count k) := by
    intro k
    have := hlook k
    simpa [List.lookup] using this
  have hkeys : tagKeys notes = notes.flatMap (fun n => n.tags) :=
    tagKeys_eq_flatMap notes (fun n hn => (hinv n hn).2)
  have hcount : ∀ t, (tagKeys notes).count t =
      (notes.filter (fun n => decide (t ∈ n.tags))).length := by
    intro t
    rw [hkeys]
    exact count_flatMap_tags notes t (fun n hn => (hinv n hn).1)
  have hperm : (listTags notes).Perm
      ((tagMap notes).map (fun p => (⟨p.1, p.2⟩ : TagCount))) :=
    stableSort_perm _ _
  have hmemL : ∀ e : TagCount,
      e ∈ (tagMap notes).map (fun p => (⟨p.1, p.2⟩ : TagCount)) ↔
        (e.tag, e.count) ∈ tagMap notes := by
    intro e
    constructor
    · intro he
      obtain ⟨p, hp, hpe⟩ := List.mem_map.mp he
      have h1 : p.1 = e.tag := congrArg TagCount.tag hpe
      have h2 : p.2 = e.count := congrArg TagCount.count hpe
      rw [← h1, ← h2]
      exact hp
    · intro he
      exact List.mem_map.mpr ⟨(e.tag, e.count), he, rfl⟩
  refine ⟨?_, ?_, ?_, by decide⟩
  · -- strictly sorted by tag
    have htot : ∀ a b : TagCount,
        (fun a b : TagCount => (strCmp a.tag b.tag ≠ Ordering.gt : Bool)) a b = true ∨
        (fun a b : TagCount => (strCmp a.tag b.tag ≠ Ordering.gt : Bool)) b a = true := by
      intro a b
      rcases cmpChars_total a.tag.data b.tag.data with h | h
      · left; simpa using h
      · right; simpa using h
    have htrans : ∀ a b c : TagCount,
        (fun a b : TagCount => (strCmp a.tag b.tag ≠ Ordering.gt : Bool)) a b = true →
        (fun a b : TagCount => (strCmp a.tag b.tag ≠ Ordering.gt : Bool)) b c = true →
        (fun a b : TagCount => (strCmp a.tag b.tag ≠ Ordering.gt : Bool)) a c = true := by
      intro a b c h1 h2
      simp only [decide_eq_true_eq] at h1 h2 ⊢
      exact cmpChars_le_trans _ _ _ h1 h2
    have hp : (listTags notes).Pairwise (fun a b =>
        (fun a b : TagCount => (strCmp a.tag b.tag ≠ Ordering.gt : Bool)) a b = true) :=
      stableSort_pairwise htot htrans _
    have hLtagnd : (((tagMap notes).map
        (fun p => (⟨p.1, p.2⟩ : TagCount))).map TagCount.tag).Nodup := by
      rw [List.map_map]
      exact hkeysnd
    have hltagnd : ((listTags notes).map TagCount.tag).Nodup :=
      ((hperm.map TagCount.tag).nodup_iff).mpr hLtagnd
    have hne : (listTags notes).Pairwise (fun a b => a.tag ≠ b.tag) :=
      List.Pairwise.of_map TagCount.tag (fun _ _ hx => hx) hltagnd
    refine (hp.and hne).imp ?_
    intro a b ⟨h1, h2⟩
    have h1' : strCmp a.tag b.tag ≠ .gt := by simpa using h1
    cases hcmp : strCmp a.tag b.tag with
    | lt => rfl
    | eq =>
      exfalso
      apply h2
      apply String.ext
      exact (cmpChars_eq_iff a.tag.data b.tag.data).mp hcmp
    | gt => exact absurd hcmp h1'
  · -- each entry: witness note and exact count
    intro e he
    have heL := (hmemL e).mp (hperm.mem_iff.mp he)
    have hlk : (tagMap notes).lookup e.tag = some e.count :=
      lookup_eq_some_of_mem hkeysnd heL
    rw [hlook' e.tag] at hlk
    by_cases hz : (tagKeys notes).count e.tag = 0
    · rw [if_pos hz] at hlk
      exact absurd hlk (by simp)
    · rw [if_neg hz] at hlk
      have hcnt : e.count = (tagKeys notes).count e.tag :=
        (Option.some.injEq .. ▸ hlk).symm
      constructor
      · have hpos : 0 < (tagKeys notes).count e.tag := Nat.pos_of_ne_zero hz
        have hmem : e.tag ∈ tagKeys notes := List.count_pos_iff.mp hpos
        rw [hkeys] at hmem
        obtain ⟨n, hn, htag⟩ := List.mem_flatMap.mp hmem
        exact ⟨n, hn, htag⟩
      · rw [hcnt, hcount]
  · -- completeness
    intro t ht
    obtain ⟨n, hn, htag⟩ := ht
    have hmem : t ∈ tagKeys notes := by
      rw [hkeys]
      exact List.mem_flatMap.mpr ⟨n, hn, htag⟩
    have hpos : 0 < (tagKeys notes).count t := List.count_pos_iff.mpr hmem
    have hz : (tagKeys notes).count t ≠ 0 := by omega
    have hlk : (tagMap notes).lookup t = some ((tagKeys notes).count t) := by
      rw [hlook' t, if_neg hz]
    have hmm : (t, (tagKeys notes).count t) ∈ tagMap notes :=
      mem_of_lookup_eq_some hlk
    refine ⟨⟨t, (tagKeys notes).count t⟩, ?_, rfl⟩
    rw [hperm.mem_iff, hmemL]
    exact hmm

/-- Witness for C8 at a concrete collection satisfying the Note
invariant. -/
theorem C8_witness :
    (listTags [⟨"A", "t", "c", ["b", "a"], false, "1", "1"⟩]).Pairwise
      (fun a b => strCmp a.tag b.tag = .lt) ∧
    ∃ e ∈ listTags [⟨"A", "t", "c", ["b", "a"], false, "1", "1"⟩],
      e.tag = "a" := by
  have h := C8_listTags_aggregation
    [⟨"A", "t", "c", ["b", "a"], false, "1", "1"⟩] (by decide)
  exact ⟨h.1, h.2.2.1 "a"
    ⟨⟨"A", "t", "c", ["b", "a"], false, "1", "1"⟩, by decide, by decide⟩⟩
